import Mathlib

/-!
# Verification of the bittorrent client core

Shallow embedding of the program in `src/src/main.rs` (a minimal bittorrent
client) together with a model of its bencode codec, and proofs about the
piece-download state machine, the handshake validation, and the codec
round-trip laws.

Bytes are modelled as `Nat` (values `< 256` in practice), byte buffers as
`List Nat`, and the SHA-1 digest as an opaque function parameter, since none
of the verified properties depend on the internals of the digest.
-/

set_option maxRecDepth 8000

namespace BitTorrent

/-- `BLOCK_MAX` from main.rs line 16: `1 << 14` = 16384 bytes. -/
def BLOCK_MAX : Nat := 16384

/-- Peer wire-protocol message tags (library enum `MessageTag`).
`haveMsg` is the `Have` tag (4); `have` is a Lean keyword. -/
inductive MessageTag where
  | choke
  | unchoke
  | interested
  | notInterested
  | haveMsg
  | bitfield
  | request
  | piece
  | cancel
deriving DecidableEq

/-- A framed peer message: tag plus payload (library struct `Message`). -/
structure Message where
  tag : MessageTag
  payload : List Nat
deriving DecidableEq

/-- The distinct `assert!`/`expect` abort sites of main.rs, used to tell one
panic apart from another in the embedding. -/
inductive PanicMsg where
  /-- line 120: `assert!(piece < t.info.pieces.0.len())` -/
  | pieceIndexInRange
  /-- line 171: `.expect("peer always sends a bitfields")` -/
  | peerSendsBitfield
  /-- line 173: `assert_eq!(bitfield.tag, MessageTag::Bitfield)` -/
  | bitfieldTag
  /-- line 186: `.expect("peer always sends an unchoke")` -/
  | peerSendsUnchoke
  /-- line 188: `assert_eq!(unchoke.tag, MessageTag::Unchoke)` -/
  | unchokeTag
  /-- line 189: `assert!(unchoke.payload.is_empty())` -/
  | unchokePayloadEmpty
  /-- line 219: `.expect("peer always sends an piece")` -/
  | peerSendsPiece
  /-- line 221: `assert_eq!(piece.tag, MessageTag::Piece)` -/
  | pieceTag
  /-- line 222: `assert!(!piece.payload.is_empty())` -/
  | piecePayloadNonempty
  /-- line 231: `assert_eq!(piece_hash, hash.as_slice())` -/
  | hashEq
  /-- line 106: `assert_eq!(handshake.length, 19)` -/
  | handshakeLen
  /-- line 107: `assert_eq!(&handshake.bittorrent, b"BitTorrent protocol")` -/
  | handshakeLiteral
deriving DecidableEq

/-- The typed error taxonomy of the spec (section 7). The embedded code paths
under verification never construct one of these: main.rs aborts through
`assert!` (a panic) instead, which is what several claims are about. -/
inductive ErrMsg where
  | parseError
  | schemaError
  | formatError
  | protocolMismatch
  | connectionError
  | unexpectedMessage
  | unknownTag
  | truncatedFrame
  | hashMismatch
deriving DecidableEq

/-- Result of running an embedded command: normal output bytes, an abort via
a Rust panic (`assert!` / `.expect`), or a typed error (`anyhow::Result`). -/
inductive Outcome where
  | ok (bytes : List Nat)
  | panicked (at_ : PanicMsg)
  | err (e : ErrMsg)
deriving DecidableEq

/-- True exactly on the typed-error outcomes. -/
def Outcome.isErr : Outcome → Bool
  | .err _ => true
  | _ => false

/-- Externally visible actions of the download-piece command, in order. -/
inductive Event where
  /-- the HTTP GET to the tracker (lines 141-148) -/
  | trackerQuery
  /-- the 68-byte handshake exchange with the peer (lines 156-164) -/
  | handshakeSent
  /-- one framed message received from the peer -/
  | recvMsg (m : Message)
  /-- the Interested message sent (lines 176-181) -/
  | sendInterested
  /-- one Request message sent, with its index / begin / length fields -/
  | sendRequest (index begin length : Nat)
deriving DecidableEq

/-- The torrent metadata fields the download-piece command reads:
`t.info.plength`, `t.length()` and `t.info.pieces.0` (list of 20-byte
piece hashes). -/
structure Torrent where
  plength : Nat
  length : Nat
  pieces : List (List Nat)
deriving DecidableEq

/-- main.rs lines 193-197: the piece size computed by the download-piece
command.  Note the condition compares against `pieces.len() + 1`. -/
def piece_size (plength totalLength npieces piece : Nat) : Nat :=
  if piece = npieces + 1 then totalLength % plength else plength

/-- main.rs line 198: `let nblock = (piece_size + (BLOCK_MAX + 1)) / BLOCK_MAX;` -/
def nblock (psz : Nat) : Nat := (psz + (BLOCK_MAX + 1)) / BLOCK_MAX

/-- main.rs lines 201-205: the size of block number `block` out of `nb`. -/
def block_size (psz nb block : Nat) : Nat :=
  if block = nb - 1 then psz % BLOCK_MAX else BLOCK_MAX

/-- The list of block sizes the download loop requests for a piece of
`psz` bytes, in request order. -/
def blockSizes (psz : Nat) : List Nat :=
  (List.range (nblock psz)).map (block_size psz (nblock psz))

/-- Result of the block-request loop (lines 200-227): either the assembled
`all_blocks` buffer or an abort. -/
inductive LoopResult where
  | done (blocks : List Nat)
  | aborted (at_ : PanicMsg)
deriving DecidableEq

/-- The block-request loop, main.rs lines 200-227.  `remaining` counts the
iterations left (`nb - block`); `block` is the Rust loop variable; `script`
is the stream of framed messages the peer will send; `acc` is `all_blocks`.
Per iteration the code sends `Request{piece, block * BLOCK_MAX, block_size}`,
then receives one frame, asserts its tag is `Piece` and its payload nonempty,
and appends `payload[8..]` to `acc`.  The 8-byte split is the Piece payload
layout of spec section 3 (`Piece::block()` lives in the library crate); the
index/begin fields of the received frame are never inspected. -/
def downloadBlocks (pieceIdx psz nb : Nat) :
    Nat → Nat → List Message → List Nat → LoopResult × List Event
  | 0, _, _, acc => (.done acc, [])
  | r + 1, block, script, acc =>
    let bsz := block_size psz nb block
    let sendEv := Event.sendRequest pieceIdx (block * BLOCK_MAX) bsz
    match script with
    | [] => (.aborted .peerSendsPiece, [sendEv])
    | m :: rest =>
      if m.tag ≠ MessageTag.piece then
        (.aborted .pieceTag, [sendEv, .recvMsg m])
      else if m.payload = [] then
        (.aborted .piecePayloadNonempty, [sendEv, .recvMsg m])
      else
        let next := downloadBlocks pieceIdx psz nb r (block + 1) rest
          (acc ++ m.payload.drop 8)
        (next.1, sendEv :: .recvMsg m :: next.2)

/-- The `Commands::DownloadPiece` branch of main.rs (lines 110-237), as a
function of the torrent metadata, requested piece index, the peer's framed
message stream (`script`), and the digest function.  Returns the outcome
(bytes written to the output file, or the abort) together with the trace of
externally visible events. -/
def downloadPiece (sha1 : List Nat → List Nat) (t : Torrent) (piece : Nat)
    (script : List Message) : Outcome × List Event :=
  if piece < t.pieces.length then
    let evs0 : List Event := [.trackerQuery, .handshakeSent]
    match script with
    | [] => (.panicked .peerSendsBitfield, evs0)
    | bitfield :: rest =>
      if bitfield.tag ≠ MessageTag.bitfield then
        (.panicked .bitfieldTag, evs0 ++ [.recvMsg bitfield])
      else
        let evs1 := evs0 ++ [.recvMsg bitfield, .sendInterested]
        match rest with
        | [] => (.panicked .peerSendsUnchoke, evs1)
        | unchoke :: rest2 =>
          let evs2 := evs1 ++ [.recvMsg unchoke]
          if unchoke.tag ≠ MessageTag.unchoke then
            (.panicked .unchokeTag, evs2)
          else if unchoke.payload ≠ [] then
            (.panicked .unchokePayloadEmpty, evs2)
          else
            let piece_hash := t.pieces.getD piece []
            let psz := piece_size t.plength t.length t.pieces.length piece
            let nb := nblock psz
            let loop := downloadBlocks piece psz nb nb 0 rest2 []
            match loop.1 with
            | .aborted p => (.panicked p, evs2 ++ loop.2)
            | .done all_blocks =>
              if sha1 all_blocks = piece_hash then
                (.ok all_blocks, evs2 ++ loop.2)
              else
                (.panicked .hashEq, evs2 ++ loop.2)
  else
    (.panicked .pieceIndexInRange, [])

/-- The bytes of the 19-byte literal `b"BitTorrent protocol"`. -/
def btLiteral : List Nat :=
  [66, 105, 116, 84, 111, 114, 114, 101, 110, 116, 32,
   112, 114, 111, 116, 111, 99, 111, 108]

/-- The `Commands::Handshake` branch after the 68 received bytes are read
back into the handshake struct (main.rs lines 102-108): byte 0 is the
`length` field, bytes 1-19 the `bittorrent` literal, bytes 48-67 the peer
id.  The code asserts `length == 19` and the literal, then prints the peer
id. -/
def handshakeCheck (recv : List Nat) : Outcome :=
  if recv.headD 0 ≠ 19 then .panicked .handshakeLen
  else if (recv.drop 1).take 19 ≠ btLiteral then .panicked .handshakeLiteral
  else .ok ((recv.drop 48).take 20)

/-- Two peer scripts agree on everything the block loop actually reads:
message tags, payload emptiness, and the payload bytes after the 8-byte
index/begin header.  They may differ arbitrarily in those 8 header bytes. -/
def sameBlocks : List Message → List Message → Bool
  | [], [] => true
  | m1 :: r1, m2 :: r2 =>
    decide (m1.tag = m2.tag) &&
    (m1.payload.isEmpty == m2.payload.isEmpty) &&
    decide (m1.payload.drop 8 = m2.payload.drop 8) &&
    sameBlocks r1 r2
  | _, _ => false

/-- The block bytes (payload after the 8-byte header) of a message list,
concatenated in arrival order. -/
def blocksBytes : List Message → List Nat
  | [] => []
  | m :: rest => m.payload.drop 8 ++ blocksBytes rest

/-- Checks that an event trace consists of `sendRequest` / `recvMsg` pairs in
strict alternation: each request's response arrives before the next request
is sent, so at most one request is ever in flight. -/
def seqOneInFlight : List Event → Bool
  | [] => true
  | Event.sendRequest _ _ _ :: Event.recvMsg _ :: rest => seqOneInFlight rest
  | _ => false

/-- The `(index, begin, length)` triples of the `sendRequest` events of a
trace, in trace order. -/
def requestEvents : List Event → List (Nat × Nat × Nat)
  | [] => []
  | Event.sendRequest i b l :: rest => (i, b, l) :: requestEvents rest
  | _ :: rest => requestEvents rest

/-! ## The bencode codec

Modelled from the spec: the bencode codec lives in the library crate
`bittorrent_starter_rust` (only its caller `decode_bencoded(&value)` appears
in src/src/main.rs line 24), so the decoder and the canonical encoder below
follow spec sections 3 and 4.1: four value variants; integers as
`i<minimal decimal>e`; byte strings as `<decimal length>:<bytes>`; lists as
`l…e`; dictionaries as `d…e` with ByteString keys, decoded in any order but
encoded in ascending byte-lexicographic key order. -/

/-- ASCII decimal digit test. -/
def isDigit (c : Nat) : Bool := decide (48 ≤ c) && decide (c ≤ 57)

/-- The base-10 digits of `n`, most significant first (digit values 0-9). -/
def natDigits (n : Nat) : List Nat :=
  if _h : n < 10 then [n]
  else natDigits (n / 10) ++ [n % 10]
decreasing_by exact Nat.div_lt_self (by omega) (by omega)

/-- Minimal decimal ASCII encoding of a natural number. -/
def encNat (n : Nat) : List Nat := (natDigits n).map (fun d => d + 48)

/-- Minimal decimal ASCII encoding of an integer: a single leading `-`
(45) exactly for negative values, no leading zeros. -/
def encInt (i : Int) : List Nat :=
  if i < 0 then 45 :: encNat i.natAbs else encNat i.toNat

/-- Modelled from the spec: the library crate's bencode value type
(section 3) — integer, byte string, list, or dictionary (key-value pairs
with byte-string keys). -/
inductive BValue where
  | int (i : Int)
  | str (s : List Nat)
  | list (vs : List BValue)
  | dict (ps : List (List Nat × BValue))

/-- Strict byte-lexicographic order on byte strings. -/
def keyLt : List Nat → List Nat → Bool
  | [], [] => false
  | [], _ :: _ => true
  | _ :: _, [] => false
  | a :: as, b :: bs => if a < b then true else if b < a then false else keyLt as bs

/-- Insert a pair into a key-sorted pair list. -/
def insertPair (p : List Nat × BValue) :
    List (List Nat × BValue) → List (List Nat × BValue)
  | [] => [p]
  | q :: qs => if keyLt p.1 q.1 then p :: q :: qs else q :: insertPair p qs

/-- Insertion sort of dictionary pairs by ascending key. -/
def sortPairs : List (List Nat × BValue) → List (List Nat × BValue)
  | [] => []
  | p :: ps => insertPair p (sortPairs ps)

mutual

/-- Structural size of a bencode value (termination measure). -/
def szV : BValue → Nat
  | .int _ => 1
  | .str _ => 1
  | .list vs => 1 + szL vs
  | .dict ps => 1 + szP ps

def szL : List BValue → Nat
  | [] => 0
  | v :: vs => 1 + szV v + szL vs

def szP : List (List Nat × BValue) → Nat
  | [] => 0
  | p :: ps => 1 + szV p.2 + szP ps

end

/-- Inserting a pair adds its size to the total pair-list size. -/
def szP_insertPair : ∀ (p : List Nat × BValue) (ps : List (List Nat × BValue)),
    szP (insertPair p ps) = 1 + szV p.2 + szP ps
  | _, [] => by simp [insertPair, szP]
  | p, q :: qs => by
    by_cases h : keyLt p.1 q.1
    · simp [insertPair, h, szP]
    · have ih := szP_insertPair p qs
      simp [insertPair, h, szP, ih]
      omega

/-- Sorting preserves the total pair-list size. -/
def szP_sortPairs : ∀ ps, szP (sortPairs ps) = szP ps
  | [] => rfl
  | p :: ps => by
    have ih := szP_sortPairs ps
    simp [sortPairs, szP_insertPair, ih, szP]

/-- A list member's size is bounded by the list size. -/
def szV_le_szL : ∀ (v : BValue) (vs : List BValue), v ∈ vs → szV v ≤ szL vs
  | v, [], h => absurd h (List.not_mem_nil v)
  | v, w :: ws, h => by
    rcases List.mem_cons.mp h with h1 | h1
    · subst h1
      simp [szL]
      omega
    · have := szV_le_szL v ws h1
      simp [szL]
      omega

/-- A pair value's size is bounded by the pair-list size. -/
def szV_le_szP : ∀ (p : List Nat × BValue) (ps : List (List Nat × BValue)),
    p ∈ ps → szV p.2 ≤ szP ps
  | p, [], h => absurd h (List.not_mem_nil p)
  | p, q :: qs, h => by
    rcases List.mem_cons.mp h with h1 | h1
    · subst h1
      simp [szP]
      omega
    · have := szV_le_szP p qs h1
      simp [szP]
      omega

/-- Structural strong induction for `BValue`, with membership induction
hypotheses for the nested lists. -/
def BValue.strongInd (motive : BValue → Prop)
    (hint : ∀ i, motive (BValue.int i))
    (hstr : ∀ s, motive (BValue.str s))
    (hlist : ∀ vs, (∀ v, v ∈ vs → motive v) → motive (BValue.list vs))
    (hdict : ∀ ps, (∀ p, p ∈ ps → motive p.2) → motive (BValue.dict ps)) :
    ∀ v, motive v
  | BValue.int i => hint i
  | BValue.str s => hstr s
  | BValue.list vs => hlist vs (fun v hv =>
      have : szV v < szV (BValue.list vs) := by
        have h1 := szV_le_szL v vs hv
        simp only [szV]
        omega
      BValue.strongInd motive hint hstr hlist hdict v)
  | BValue.dict ps => hdict ps (fun p hp =>
      have : szV p.2 < szV (BValue.dict ps) := by
        have h1 := szV_le_szP p ps hp
        simp only [szV]
        omega
      BValue.strongInd motive hint hstr hlist hdict p.2)
termination_by v => szV v

mutual

/-- Modelled from the spec: the library crate's canonical bencode encoder
(spec section 4.1): integers as
`i…e`, strings as `<len>:…`, lists as `l…e`, dictionaries as `d…e`
with the pairs emitted in ascending byte-lexicographic key order
regardless of stored order. -/
def encodeV : BValue → List Nat
  | .int i => 105 :: (encInt i ++ [101])
  | .str s => encStr s
  | .list vs => 108 :: (encodeList vs ++ [101])
  | .dict ps => 100 :: (encodePairs (sortPairs ps) ++ [101])
termination_by v => szV v
decreasing_by all_goals (simp [szV, szL, szP, szP_sortPairs]; try omega)

/-- Concatenated encodings of list elements, in order. -/
def encodeList : List BValue → List Nat
  | [] => []
  | v :: vs => encodeV v ++ encodeList vs
termination_by vs => szL vs
decreasing_by all_goals (simp [szV, szL, szP, szP_sortPairs]; try omega)

/-- Concatenated `key-encoding ++ value-encoding` of dictionary pairs,
in order. -/
def encodePairs : List (List Nat × BValue) → List Nat
  | [] => []
  | p :: ps => encStr p.1 ++ (encodeV p.2 ++ encodePairs ps)
termination_by ps => szP ps
decreasing_by all_goals (simp [szV, szL, szP, szP_sortPairs]; try omega)

/-- Byte-string encoding: decimal length, `:` (58), then the raw bytes. -/
def encStr (s : List Nat) : List Nat := encNat s.length ++ 58 :: s

end

/-- Keys in strictly ascending byte-lexicographic order. -/
def keysSorted : List (List Nat) → Bool
  | [] => true
  | [_] => true
  | k1 :: k2 :: ks => keyLt k1 k2 && keysSorted (k2 :: ks)

mutual

/-- A valid bencode value per spec section 3: every dictionary has unique,
byte-lexicographically sorted keys (strictly ascending), recursively. -/
def validB : BValue → Bool
  | .int _ => true
  | .str _ => true
  | .list vs => validL vs
  | .dict ps => keysSorted (ps.map Prod.fst) && validP ps

/-- All list elements valid. -/
def validL : List BValue → Bool
  | [] => true
  | v :: vs => validB v && validL vs

/-- All dictionary values valid. -/
def validP : List (List Nat × BValue) → Bool
  | [] => true
  | p :: ps => validB p.2 && validP ps

end

/-- Greedy split of the longest ASCII-digit prefix from the rest. -/
def spanDigits : List Nat → List Nat × List Nat
  | [] => ([], [])
  | c :: rest =>
    if isDigit c then
      let p := spanDigits rest
      (c :: p.1, p.2)
    else ([], c :: rest)

/-- Value of a most-significant-first digit list (digit values 0-9). -/
def digitsVal (ds : List Nat) : Nat := ds.foldl (fun a d => 10 * a + d) 0

/-- True when the list does not start with an ASCII digit. -/
def headNotDigit : List Nat → Bool
  | [] => true
  | c :: _ => !isDigit c

/-- Parse a decimal natural number prefix; fails on an empty digit prefix
and on a leading zero (except the literal `0`), per spec section 4.1. -/
def parseNat (input : List Nat) : Option (Nat × List Nat) :=
  match spanDigits input with
  | ([], _) => none
  | (ds, rest) =>
    if ds.headD 0 = 48 && ds.length != 1 then none
    else some (digitsVal (ds.map (fun d => d - 48)), rest)

/-- Take exactly `n` bytes; fails when fewer are available (a declared
string length exceeding the remaining buffer is a parse error). -/
def takeN : Nat → List Nat → Option (List Nat × List Nat)
  | 0, l => some ([], l)
  | _ + 1, [] => none
  | n + 1, c :: l => (takeN n l).map (fun p => (c :: p.1, p.2))

/-- Parse a byte string: decimal length, `:`, then exactly that many
bytes. -/
def parseStr (input : List Nat) : Option (List Nat × List Nat) :=
  match parseNat input with
  | none => none
  | some (len, r) =>
    match r with
    | 58 :: r2 => takeN len r2
    | _ => none

/-- Parse an integer body (after the `i` marker) up to and including its
`e` terminator: an optional single `-` (45), digits with no leading zero,
and no `-0`. -/
def parseIntBody (input : List Nat) : Option (Int × List Nat) :=
  if input.headD 0 = 45 then
    match parseNat input.tail with
    | some (n, r) =>
      if n = 0 then none
      else
        match r with
        | 101 :: r2 => some (-(n : Int), r2)
        | _ => none
    | none => none
  else
    match parseNat input with
    | some (n, r) =>
      match r with
      | 101 :: r2 => some ((n : Int), r2)
      | _ => none
    | none => none

mutual

/-- Modelled from the spec: the library crate's bencode decoder
(spec section 4.1), with a recursion-depth fuel parameter.  Dispatches on the leading byte: `i` (105) integer, `l` (108)
list, `d` (100) dictionary, an ASCII digit a byte string; anything else —
or an empty input — is a parse error (`none`). -/
def decodeV : Nat → List Nat → Option (BValue × List Nat)
  | 0, _ => none
  | f + 1, input =>
    match input with
    | [] => none
    | c :: rest =>
      if c = 105 then
        match parseIntBody rest with
        | some (i, r) => some (.int i, r)
        | none => none
      else if c = 108 then
        match decodeElems f rest with
        | some (vs, r) => some (.list vs, r)
        | none => none
      else if c = 100 then
        match decodePairs f rest with
        | some (ps, r) => some (.dict ps, r)
        | none => none
      else if isDigit c then
        match parseStr (c :: rest) with
        | some (s, r) => some (.str s, r)
        | none => none
      else none

/-- Decode list elements until the `e` (101) terminator; an exhausted
input before the terminator is a parse error. -/
def decodeElems : Nat → List Nat → Option (List BValue × List Nat)
  | 0, _ => none
  | f + 1, input =>
    if input.headD 0 = 101 then some ([], input.tail)
    else
      match decodeV f input with
      | none => none
      | some (v, r) =>
        match decodeElems f r with
        | none => none
        | some (vs, r2) => some (v :: vs, r2)

/-- Decode dictionary pairs until the `e` terminator; every key must
decode as a byte string. -/
def decodePairs : Nat → List Nat → Option (List (List Nat × BValue) × List Nat)
  | 0, _ => none
  | f + 1, input =>
    if input.headD 0 = 101 then some ([], input.tail)
    else
      match parseStr input with
      | none => none
      | some (k, r) =>
        match decodeV f r with
        | none => none
        | some (v, r2) =>
          match decodePairs f r2 with
          | none => none
          | some (ps, r3) => some ((k, v) :: ps, r3)

end

mutual

/-- Fuel sufficient for `decodeV` to decode the encoding of a value. -/
def needV : BValue → Nat
  | .int _ => 1
  | .str _ => 1
  | .list vs => 1 + needE vs
  | .dict ps => 1 + needP ps

/-- Fuel sufficient for `decodeElems` on an encoded element list. -/
def needE : List BValue → Nat
  | [] => 1
  | v :: vs => 1 + needV v + needE vs

/-- Fuel sufficient for `decodePairs` on encoded dictionary pairs. -/
def needP : List (List Nat × BValue) → Nat
  | [] => 1
  | p :: ps => 1 + needV p.2 + needP ps

end

/-- Modelled from the spec: the decoder entry point (`decode_bencoded` in
the library crate).  `2 * length + 2` fuel always suffices, since every two
fuel steps consume at least one input byte. -/
def decode (b : List Nat) : Option (BValue × List Nat) :=
  decodeV (2 * b.length + 2) b

end BitTorrent

namespace BitTorrent

/-! ## Claims C1 and C2: the piece-size and block-splitting arithmetic -/

/-- C1: the claim states that for a torrent with `P` pieces every piece index
other than the last `P-1` gets the full `piece_length`, and the last gets
`total_length % piece_length` (or the full length when that remainder is 0).
The code instead guards the remainder branch with `piece == pieces.len() + 1`,
which can never hold for an in-range index, so the *last* piece also gets the
full `piece_length`.  At the spec's own example (piece_length 262144, total
300000, 2 pieces, piece index 1) the code yields 262144, not the 37856 the
claim requires. -/
theorem piece_size_last_piece_diverges :
    piece_size 262144 300000 2 1 = 262144 ∧
    300000 % 262144 = 37856 ∧
    piece_size 262144 300000 2 1 ≠ 37856 ∧
    piece_size 262144 300000 2 0 = 262144 := by
  refine ⟨rfl, rfl, ?_, rfl⟩
  decide

/-- C2: the claim states a piece of `psz > 0` bytes is split into exactly
`ceil(psz / 16384)` blocks, all of size 16384 except a final block of
`psz % 16384` (or 16384 when the remainder is 0); in particular 16384 bytes
should be a single block `[16384]`.  The code computes
`nblock = (psz + (BLOCK_MAX + 1)) / BLOCK_MAX`, which at `psz = 16384`
yields 2 blocks, the final one of size 0 — while the non-divisible example
(37856 → `[16384, 16384, 5088]`) does match the claim. -/
theorem blockSizes_split_diverges :
    nblock 16384 = 2 ∧
    blockSizes 16384 = [16384, 0] ∧
    blockSizes 16384 ≠ [16384] ∧
    blockSizes 37856 = [16384, 16384, 5088] := by
  refine ⟨rfl, rfl, ?_, rfl⟩
  decide

/-! ## Claims C6 and C7: the bitfield / unchoke sub-sequence -/

/-- C6 counterexample: when the first message after the handshake is a `Have`
rather than a `Bitfield`, the code aborts through
`assert_eq!(bitfield.tag, MessageTag::Bitfield)` — a panic — and does not
fail with a typed `UnexpectedMessage` error as the claim states. -/
theorem first_message_have_panics :
    (downloadPiece (fun _ => [1]) ⟨5, 5, [[1]]⟩ 0
      [⟨MessageTag.haveMsg, [0, 0, 0, 0]⟩]).1 = .panicked .bitfieldTag ∧
    ((downloadPiece (fun _ => [1]) ⟨5, 5, [[1]]⟩ 0
      [⟨MessageTag.haveMsg, [0, 0, 0, 0]⟩]).1).isErr = false := by
  exact ⟨rfl, rfl⟩

/-- C6 amended: after the handshake the first message received must have
tag `Bitfield`; any other first tag makes the download-piece command abort
via an assertion failure (a panic), not a typed `UnexpectedMessage` error. -/
theorem first_message_must_be_bitfield (sha1 : List Nat → List Nat)
    (t : Torrent) (piece : Nat) (m : Message) (rest : List Message)
    (hp : piece < t.pieces.length) (hm : m.tag ≠ MessageTag.bitfield) :
    (downloadPiece sha1 t piece (m :: rest)).1 = .panicked .bitfieldTag ∧
    ((downloadPiece sha1 t piece (m :: rest)).1).isErr = false := by
  simp [downloadPiece, if_pos hp, if_pos hm, Outcome.isErr]

/-- C6 witness: the amended theorem at a concrete torrent and a `Choke`
first message. -/
theorem first_message_must_be_bitfield_witness :
    (downloadPiece (fun _ => [7]) ⟨4, 4, [[7]]⟩ 0
      [⟨MessageTag.choke, []⟩, ⟨MessageTag.unchoke, []⟩]).1
      = .panicked .bitfieldTag ∧
    ((downloadPiece (fun _ => [7]) ⟨4, 4, [[7]]⟩ 0
      [⟨MessageTag.choke, []⟩, ⟨MessageTag.unchoke, []⟩]).1).isErr = false :=
  first_message_must_be_bitfield _ _ _ _ _ (by decide) (by decide)

/-- C7 counterexample: a `Have` message arriving between `Interested` and
`Unchoke` is not ignored: the code reads exactly one message there and
aborts through `assert_eq!(unchoke.tag, MessageTag::Unchoke)`, even though
a well-formed `Unchoke` (and a correct block) follows in the stream. -/
theorem have_before_unchoke_panics :
    (downloadPiece (fun _ => [1]) ⟨5, 5, [[1]]⟩ 0
      [⟨MessageTag.bitfield, [255]⟩,
       ⟨MessageTag.haveMsg, [0, 0, 0, 0]⟩,
       ⟨MessageTag.unchoke, []⟩,
       ⟨MessageTag.piece, [0, 0, 0, 0, 0, 0, 0, 0, 9, 8, 7, 6, 5]⟩]).1
      = .panicked .unchokeTag ∧
    ((downloadPiece (fun _ => [1]) ⟨5, 5, [[1]]⟩ 0
      [⟨MessageTag.bitfield, [255]⟩,
       ⟨MessageTag.haveMsg, [0, 0, 0, 0]⟩,
       ⟨MessageTag.unchoke, []⟩,
       ⟨MessageTag.piece, [0, 0, 0, 0, 0, 0, 0, 0, 9, 8, 7, 6, 5]⟩]).1).isErr
      = false := by
  exact ⟨rfl, rfl⟩

/-- C7 amended: after sending `Interested` the code reads exactly one
message and asserts it is an `Unchoke` with an empty payload.  Any other
message in that slot — including `Have` or `Bitfield` — causes an assertion
failure (a panic), rather than being ignored; an `Unchoke` with a nonempty
payload is likewise an assertion failure. -/
theorem unchoke_wait_reads_one_message (sha1 : List Nat → List Nat)
    (t : Torrent) (piece : Nat) (bf m : Message) (rest : List Message)
    (hp : piece < t.pieces.length) (hbf : bf.tag = MessageTag.bitfield) :
    (m.tag ≠ MessageTag.unchoke →
      (downloadPiece sha1 t piece (bf :: m :: rest)).1 = .panicked .unchokeTag ∧
      ((downloadPiece sha1 t piece (bf :: m :: rest)).1).isErr = false) ∧
    (m.tag = MessageTag.unchoke → m.payload ≠ [] →
      (downloadPiece sha1 t piece (bf :: m :: rest)).1
        = .panicked .unchokePayloadEmpty) := by
  constructor
  · intro hm
    simp only [downloadPiece, if_pos hp, hbf, ne_eq, not_true_eq_false,
      if_neg, ite_not, if_pos hm]
    simp [hm, Outcome.isErr]
  · intro hm hpay
    simp [downloadPiece, if_pos hp, hbf, hm, hpay]

/-! ## Claim C5: handling of the per-block response frame -/

/-- C5 counterexample: a `Piece` frame whose index bytes encode 999 and whose
begin bytes encode 9999 — neither matching the outstanding request
`Request{index = 0, begin = 0, length = 5}` — is accepted without any
protocol error: the download completes and its block bytes are the output.
Moreover a `Have` frame arriving while a block response is awaited is not
ignored: the code aborts through `assert_eq!(piece.tag, MessageTag::Piece)`. -/
theorem piece_header_mismatch_accepted :
    (downloadPiece (fun _ => [1]) ⟨5, 5, [[1]]⟩ 0
      [⟨MessageTag.bitfield, [255]⟩, ⟨MessageTag.unchoke, []⟩,
       ⟨MessageTag.piece, [0, 0, 3, 231, 0, 0, 39, 15, 9, 8, 7, 6, 5]⟩]).1
      = .ok [9, 8, 7, 6, 5] ∧
    (downloadPiece (fun _ => [1]) ⟨5, 5, [[1]]⟩ 0
      [⟨MessageTag.bitfield, [255]⟩, ⟨MessageTag.unchoke, []⟩,
       ⟨MessageTag.haveMsg, [0, 0, 0, 0]⟩]).1
      = .panicked .pieceTag := by
  exact ⟨rfl, rfl⟩

/-- C5 amended: while waiting for each block response the code asserts the
frame has tag `Piece` with a nonempty payload, aborting (panic) on any other
tag instead of ignoring it; it never inspects the frame's index or begin
fields — the loop outcome is invariant under arbitrary changes to the first
8 payload bytes of every response (`sameBlocks`) — and on success the
assembled buffer is the accumulated payload-after-header bytes of the
responses in arrival order, not placed by the frame's begin offset. -/
theorem block_loop_response_handling (pieceIdx psz nb : Nat) :
    (∀ r block s1 s2 acc, sameBlocks s1 s2 = true →
      (downloadBlocks pieceIdx psz nb r block s1 acc).1
        = (downloadBlocks pieceIdx psz nb r block s2 acc).1) ∧
    (∀ r block m rest acc, m.tag ≠ MessageTag.piece →
      (downloadBlocks pieceIdx psz nb (r + 1) block (m :: rest) acc).1
        = .aborted .pieceTag) ∧
    (∀ r block s acc bytes evs,
      downloadBlocks pieceIdx psz nb r block s acc = (.done bytes, evs) →
      bytes = acc ++ blocksBytes (s.take r)) := by
  refine ⟨?_, ?_, ?_⟩
  · intro r
    induction r with
    | zero => intro block s1 s2 acc _; rfl
    | succ n ih =>
      intro block s1 s2 acc hsame
      match s1, s2 with
      | [], [] => rfl
      | [], _ :: _ => simp [sameBlocks] at hsame
      | _ :: _, [] => simp [sameBlocks] at hsame
      | m1 :: r1, m2 :: r2 =>
        simp only [sameBlocks, Bool.and_eq_true, decide_eq_true_eq,
          beq_iff_eq] at hsame
        obtain ⟨⟨⟨htag, hemp⟩, hdrop⟩, hrest⟩ := hsame
        by_cases hp : m1.tag = MessageTag.piece
        · have hp2 : m2.tag = MessageTag.piece := by rw [← htag]; exact hp
          by_cases hpay : m1.payload = []
          · have hpay2 : m2.payload = [] := by
              have h2 : m2.payload.isEmpty = true := by
                rw [← hemp, hpay]; rfl
              simpa using h2
            simp [downloadBlocks, hp, hp2, hpay, hpay2]
          · have hpay2 : m2.payload ≠ [] := by
              intro hc
              apply hpay
              have h1 : m1.payload.isEmpty = true := by
                rw [hemp, hc]; rfl
              simpa using h1
            simp only [downloadBlocks, hp, hp2, hpay, hpay2, ne_eq,
              not_true_eq_false, if_false, ite_false, if_neg]
            rw [hdrop]
            exact ih _ r1 r2 _ hrest
        · have hp2 : m2.tag ≠ MessageTag.piece := by rw [← htag]; exact hp
          simp [downloadBlocks, hp, hp2]
  · intro r block m rest acc hm
    simp [downloadBlocks, hm]
  · intro r
    induction r with
    | zero =>
      intro block s acc bytes evs h
      simp only [downloadBlocks, Prod.mk.injEq, LoopResult.done.injEq] at h
      simp [← h.1, blocksBytes]
    | succ n ih =>
      intro block s acc bytes evs h
      match s with
      | [] => simp [downloadBlocks] at h
      | m :: rest =>
        by_cases hp : m.tag = MessageTag.piece
        · by_cases hpay : m.payload = []
          · simp [downloadBlocks, hp, hpay] at h
          · simp only [downloadBlocks, hp, hpay, ne_eq, not_true_eq_false,
              if_false, ite_false, if_neg, Prod.mk.injEq] at h
            obtain ⟨h1, h2⟩ := h
            have hnext : downloadBlocks pieceIdx psz nb n (block + 1) rest
                (acc ++ m.payload.drop 8)
                = (.done bytes, (downloadBlocks pieceIdx psz nb n (block + 1)
                    rest (acc ++ m.payload.drop 8)).2) := by
              rw [← h1]
            have := ih (block + 1) rest (acc ++ m.payload.drop 8) bytes _ hnext
            simp [this, blocksBytes, List.append_assoc]
        · simp [downloadBlocks, hp] at h

/-- C5 witness: the header-invariance part of the amended theorem at two
concrete one-message scripts that differ only in the 8 header bytes. -/
theorem block_loop_response_handling_witness :
    (downloadBlocks 0 5 1 1 0
      [⟨MessageTag.piece, [0, 0, 3, 231, 0, 0, 39, 15, 9, 8, 7, 6, 5]⟩] []).1
      = (downloadBlocks 0 5 1 1 0
      [⟨MessageTag.piece, [0, 0, 0, 0, 0, 0, 0, 0, 9, 8, 7, 6, 5]⟩] []).1 :=
  (block_loop_response_handling 0 5 1).1 1 0 _ _ [] (by decide)

/-- C7 witness: the amended theorem at a concrete torrent, with a `Have`
message sitting in the unchoke slot. -/
theorem unchoke_wait_reads_one_message_witness :
    (downloadPiece (fun _ => [7]) ⟨4, 4, [[7]]⟩ 0
      [⟨MessageTag.bitfield, []⟩, ⟨MessageTag.haveMsg, [0, 0, 0, 2]⟩]).1
      = .panicked .unchokeTag ∧
    ((downloadPiece (fun _ => [7]) ⟨4, 4, [[7]]⟩ 0
      [⟨MessageTag.bitfield, []⟩, ⟨MessageTag.haveMsg, [0, 0, 0, 2]⟩]).1).isErr
      = false :=
  (unchoke_wait_reads_one_message _ _ _ _ _ _ (by decide) (by decide)).1
    (by decide)

/-! ## Claim C3: digest verification gating the output -/

/-- C3 counterexample: on a digest mismatch (the digest function returns
`[0]`, the metadata expects `[1]`) the program aborts through
`assert_eq!(piece_hash, hash.as_slice())` — a panic, not the typed
`Failed(HashMismatch)` error the claim states. -/
theorem hash_mismatch_panics :
    (downloadPiece (fun _ => [0]) ⟨5, 5, [[1]]⟩ 0
      [⟨MessageTag.bitfield, [255]⟩, ⟨MessageTag.unchoke, []⟩,
       ⟨MessageTag.piece, [0, 0, 0, 0, 0, 0, 0, 0, 9, 8, 7, 6, 5]⟩]).1
      = .panicked .hashEq ∧
    ((downloadPiece (fun _ => [0]) ⟨5, 5, [[1]]⟩ 0
      [⟨MessageTag.bitfield, [255]⟩, ⟨MessageTag.unchoke, []⟩,
       ⟨MessageTag.piece, [0, 0, 0, 0, 0, 0, 0, 0, 9, 8, 7, 6, 5]⟩]).1).isErr
      = false := by
  exact ⟨rfl, rfl⟩

/-- C3 amended: once the block loop has assembled `all_blocks`, the code
digests the full buffer and compares it to the expected piece digest of the
metadata.  On a match, exactly the assembled buffer is the output; on a
mismatch the program aborts via assertion failure (a panic, not a typed
`HashMismatch` error), the buffer is discarded and no bytes are output. -/
theorem verification_gates_output (sha1 : List Nat → List Nat) (t : Torrent)
    (piece : Nat) (bfp : List Nat) (rest : List Message)
    (all_blocks : List Nat) (levs : List Event)
    (hp : piece < t.pieces.length)
    (hloop : downloadBlocks piece
        (piece_size t.plength t.length t.pieces.length piece)
        (nblock (piece_size t.plength t.length t.pieces.length piece))
        (nblock (piece_size t.plength t.length t.pieces.length piece))
        0 rest [] = (.done all_blocks, levs)) :
    (sha1 all_blocks = t.pieces.getD piece [] →
      (downloadPiece sha1 t piece
        (⟨MessageTag.bitfield, bfp⟩ :: ⟨MessageTag.unchoke, []⟩ :: rest)).1
        = .ok all_blocks) ∧
    (sha1 all_blocks ≠ t.pieces.getD piece [] →
      (downloadPiece sha1 t piece
        (⟨MessageTag.bitfield, bfp⟩ :: ⟨MessageTag.unchoke, []⟩ :: rest)).1
        = .panicked .hashEq ∧
      ((downloadPiece sha1 t piece
        (⟨MessageTag.bitfield, bfp⟩ :: ⟨MessageTag.unchoke, []⟩ :: rest)).1).isErr
        = false ∧
      ∀ bytes, (downloadPiece sha1 t piece
        (⟨MessageTag.bitfield, bfp⟩ :: ⟨MessageTag.unchoke, []⟩ :: rest)).1
        ≠ .ok bytes) := by
  constructor
  · intro hh
    simp [downloadPiece, hp, hloop, hh]
  · intro hh
    have hh2 : sha1 all_blocks ≠ t.pieces[piece] := by
      rw [← List.getD_eq_getElem t.pieces [] hp]
      exact hh
    refine ⟨?_, ?_, ?_⟩ <;>
      simp [downloadPiece, hp, hloop, hh, hh2, Outcome.isErr]

/-- C3 witness: the amended theorem at a concrete one-piece torrent whose
digest matches: the exact assembled buffer is output. -/
theorem verification_gates_output_witness :
    (downloadPiece (fun _ => [1]) ⟨5, 5, [[1]]⟩ 0
      [⟨MessageTag.bitfield, [255]⟩, ⟨MessageTag.unchoke, []⟩,
       ⟨MessageTag.piece, [0, 0, 0, 0, 0, 0, 0, 0, 9, 8, 7, 6, 5]⟩]).1
      = .ok [9, 8, 7, 6, 5] :=
  (verification_gates_output (fun _ => [1]) ⟨5, 5, [[1]]⟩ 0 [255]
    [⟨MessageTag.piece, [0, 0, 0, 0, 0, 0, 0, 0, 9, 8, 7, 6, 5]⟩]
    [9, 8, 7, 6, 5]
    [Event.sendRequest 0 0 5,
     Event.recvMsg ⟨MessageTag.piece, [0, 0, 0, 0, 0, 0, 0, 0, 9, 8, 7, 6, 5]⟩]
    (by decide) (by decide)).1 (by decide)

/-! ## Claims C8 and C10: request sequencing and the index guard -/

/-- Step equation: script exhausted while a block is still needed. -/
theorem downloadBlocks_nil (pieceIdx psz nb r block : Nat) (acc : List Nat) :
    downloadBlocks pieceIdx psz nb (r + 1) block [] acc
      = (.aborted .peerSendsPiece,
         [Event.sendRequest pieceIdx (block * BLOCK_MAX)
           (block_size psz nb block)]) := rfl

/-- Step equation: the response frame has the wrong tag. -/
theorem downloadBlocks_cons_tag (pieceIdx psz nb r block : Nat) (m : Message)
    (rest : List Message) (acc : List Nat)
    (hm : m.tag ≠ MessageTag.piece) :
    downloadBlocks pieceIdx psz nb (r + 1) block (m :: rest) acc
      = (.aborted .pieceTag,
         [Event.sendRequest pieceIdx (block * BLOCK_MAX)
           (block_size psz nb block), .recvMsg m]) := by
  simp [downloadBlocks, hm]

/-- Step equation: the response frame has an empty payload. -/
theorem downloadBlocks_cons_empty (pieceIdx psz nb r block : Nat)
    (m : Message) (rest : List Message) (acc : List Nat)
    (hm : m.tag = MessageTag.piece) (hpay : m.payload = []) :
    downloadBlocks pieceIdx psz nb (r + 1) block (m :: rest) acc
      = (.aborted .piecePayloadNonempty,
         [Event.sendRequest pieceIdx (block * BLOCK_MAX)
           (block_size psz nb block), .recvMsg m]) := by
  simp [downloadBlocks, hm, hpay]

/-- Step equation: a well-formed response frame; the loop recurses. -/
theorem downloadBlocks_cons_step (pieceIdx psz nb r block : Nat)
    (m : Message) (rest : List Message) (acc : List Nat)
    (hm : m.tag = MessageTag.piece) (hpay : m.payload ≠ []) :
    downloadBlocks pieceIdx psz nb (r + 1) block (m :: rest) acc
      = ((downloadBlocks pieceIdx psz nb r (block + 1) rest
            (acc ++ m.payload.drop 8)).1,
         Event.sendRequest pieceIdx (block * BLOCK_MAX)
           (block_size psz nb block)
           :: .recvMsg m
           :: (downloadBlocks pieceIdx psz nb r (block + 1) rest
                (acc ++ m.payload.drop 8)).2) := by
  simp [downloadBlocks, hm, hpay]

/-- Every `sendRequest` the block loop emits carries the loop's piece
index. -/
theorem downloadBlocks_request_index (pieceIdx psz nb : Nat) :
    ∀ r block s acc i b l,
      Event.sendRequest i b l ∈ (downloadBlocks pieceIdx psz nb r block s acc).2 →
      i = pieceIdx := by
  intro r
  induction r with
  | zero => intro block s acc i b l h; simp [downloadBlocks] at h
  | succ n ih =>
    intro block s acc i b l h
    match s with
    | [] =>
      rw [downloadBlocks_nil] at h
      have h := List.mem_singleton.mp h
      simp only [Event.sendRequest.injEq] at h
      exact h.1
    | m :: rest =>
      by_cases hp : m.tag = MessageTag.piece
      · by_cases hpay : m.payload = []
        · rw [downloadBlocks_cons_empty pieceIdx psz nb n block m rest acc
            hp hpay] at h
          rcases List.mem_cons.mp h with h | h
          · simp only [Event.sendRequest.injEq] at h
            exact h.1
          · rcases List.mem_cons.mp h with h | h
            · exact Event.noConfusion h
            · exact absurd h (List.not_mem_nil _)
        · rw [downloadBlocks_cons_step pieceIdx psz nb n block m rest acc
            hp hpay] at h
          rcases List.mem_cons.mp h with h | h
          · simp only [Event.sendRequest.injEq] at h
            exact h.1
          · rcases List.mem_cons.mp h with h | h
            · exact Event.noConfusion h
            · exact ih (block + 1) rest (acc ++ m.payload.drop 8) i b l h
      · rw [downloadBlocks_cons_tag pieceIdx psz nb n block m rest acc hp] at h
        rcases List.mem_cons.mp h with h | h
        · simp only [Event.sendRequest.injEq] at h
          exact h.1
        · rcases List.mem_cons.mp h with h | h
          · exact Event.noConfusion h
          · exact absurd h (List.not_mem_nil _)

/-- C10: if the requested piece index is not strictly below the number of
piece digests, the download-piece command aborts through
`assert!(piece < t.info.pieces.0.len())` with an empty event trace — in
particular before the tracker query and before any peer contact; and every
`Request` message it ever sends carries exactly the requested (hence
in-range) piece index. -/
theorem piece_index_guard (sha1 : List Nat → List Nat) (t : Torrent)
    (piece : Nat) (script : List Message) :
    (¬ piece < t.pieces.length →
      downloadPiece sha1 t piece script = (.panicked .pieceIndexInRange, [])) ∧
    (∀ i b l,
      Event.sendRequest i b l ∈ (downloadPiece sha1 t piece script).2 →
      i = piece ∧ piece < t.pieces.length) := by
  constructor
  · intro hp
    simp [downloadPiece, hp]
  · intro i b l h
    by_cases hp : piece < t.pieces.length
    · refine ⟨?_, hp⟩
      match script with
      | [] => simp [downloadPiece, hp] at h
      | bf :: rest =>
        by_cases hbf : bf.tag = MessageTag.bitfield
        · match rest with
          | [] => simp [downloadPiece, hp, hbf] at h
          | un :: rest2 =>
            by_cases hun : un.tag = MessageTag.unchoke
            · by_cases hpay : un.payload = []
              · rcases hloop : downloadBlocks piece
                    (piece_size t.plength t.length t.pieces.length piece)
                    (nblock (piece_size t.plength t.length t.pieces.length piece))
                    (nblock (piece_size t.plength t.length t.pieces.length piece))
                    0 rest2 [] with ⟨res, levs⟩
                have hmem : Event.sendRequest i b l ∈ levs → i = piece := by
                  intro hm
                  exact downloadBlocks_request_index piece _ _ _ 0 rest2 [] i b l
                    (by rw [hloop]; exact hm)
                cases res with
                | aborted p =>
                  simp [downloadPiece, hp, hbf, hun, hpay, hloop] at h
                  exact hmem h
                | done ab =>
                  by_cases hsha : sha1 ab = t.pieces[piece]
                  · simp [downloadPiece, hp, hbf, hun, hpay, hloop, hsha] at h
                    exact hmem h
                  · simp [downloadPiece, hp, hbf, hun, hpay, hloop, hsha] at h
                    exact hmem h
              · simp [downloadPiece, hp, hbf, hun, hpay] at h
            · simp [downloadPiece, hp, hbf, hun] at h
        · simp [downloadPiece, hp, hbf] at h
    · simp [downloadPiece, hp] at h

/-- C10 witness: the index guard at piece index 5 of a 1-piece torrent (the
trace is empty: no tracker query, no peer contact), and the in-range part at
a concrete completed download whose only request carries index 0 < 1. -/
theorem piece_index_guard_witness :
    downloadPiece (fun _ => []) (⟨3, 3, [[1]]⟩ : Torrent) 5 []
      = (.panicked .pieceIndexInRange, []) ∧ (0 = 0 ∧ 0 < 1) :=
  ⟨(piece_index_guard (fun _ => []) ⟨3, 3, [[1]]⟩ 5 []).1 (by decide),
   (piece_index_guard (fun _ => [1]) ⟨5, 5, [[1]]⟩ 0
      [⟨MessageTag.bitfield, [255]⟩, ⟨MessageTag.unchoke, []⟩,
       ⟨MessageTag.piece, [0, 0, 0, 0, 0, 0, 0, 0, 9, 8, 7, 6, 5]⟩]).2
      0 0 5 (by decide)⟩

/-- Peeling the first index off a `List.range` map with an offset. -/
theorem map_range_shift {α : Type} (f : Nat → α) :
    ∀ n b, (List.range (n + 1)).map (fun k => f (b + k))
      = f b :: (List.range n).map (fun k => f (b + 1 + k)) := by
  intro n
  induction n with
  | zero =>
    intro b
    rw [show List.range 1 = [0] from rfl]
    simp
  | succ d ih =>
    intro b
    have hbd : b + (d + 1) = b + 1 + d := by omega
    rw [List.range_succ, List.map_append, ih b, List.range_succ,
      List.map_append]
    simp [hbd]

/-- On a successfully completed block loop, the event trace alternates
`sendRequest` / `recvMsg` strictly, and its requests are exactly blocks
`block, block+1, …` at offsets `k * BLOCK_MAX` with the sizes of
`block_size`, in ascending order. -/
theorem downloadBlocks_done_trace (pieceIdx psz nb : Nat) :
    ∀ r block s acc bytes evs,
      downloadBlocks pieceIdx psz nb r block s acc = (.done bytes, evs) →
      seqOneInFlight evs = true ∧
      requestEvents evs
        = (List.range r).map
            (fun k => (pieceIdx, (block + k) * BLOCK_MAX,
              block_size psz nb (block + k))) := by
  intro r
  induction r with
  | zero =>
    intro block s acc bytes evs h
    simp only [downloadBlocks, Prod.mk.injEq] at h
    rw [← h.2]
    exact ⟨rfl, rfl⟩
  | succ n ih =>
    intro block s acc bytes evs h
    match s with
    | [] =>
      rw [downloadBlocks_nil] at h
      exact absurd h (by simp)
    | m :: rest =>
      by_cases hp : m.tag = MessageTag.piece
      · by_cases hpay : m.payload = []
        · rw [downloadBlocks_cons_empty pieceIdx psz nb n block m rest acc
            hp hpay] at h
          exact absurd h (by simp)
        · rw [downloadBlocks_cons_step pieceIdx psz nb n block m rest acc
            hp hpay] at h
          have h1 := congrArg Prod.fst h
          have h2 := congrArg Prod.snd h
          simp only at h1 h2
          have hnext : downloadBlocks pieceIdx psz nb n (block + 1) rest
              (acc ++ m.payload.drop 8)
              = (.done bytes, (downloadBlocks pieceIdx psz nb n (block + 1)
                  rest (acc ++ m.payload.drop 8)).2) := by
            rw [← h1]
          obtain ⟨hseq, hreq⟩ := ih (block + 1) rest (acc ++ m.payload.drop 8)
            bytes _ hnext
          rw [← h2]
          constructor
          · simpa [seqOneInFlight] using hseq
          · simp only [requestEvents]
            rw [hreq]
            exact (map_range_shift
              (fun j => (pieceIdx, j * BLOCK_MAX, block_size psz nb j))
              n block).symm
      · rw [downloadBlocks_cons_tag pieceIdx psz nb n block m rest acc hp] at h
        exact absurd h (by simp)

/-- C8: in every run of the download-piece command that completes with an
output, the download-phase trace (after the 5 prelude events: tracker query,
handshake, bitfield receive, interested send, unchoke receive) consists of
strictly alternating `sendRequest` / `recvMsg` pairs — each request's
response is fully received before the next request is sent, so at most one
request is in flight — and the requests are, in order, exactly
`(piece, k * BLOCK_MAX, block_size)` for `k = 0, 1, …, nblock - 1`,
i.e. in ascending offset order. -/
theorem requests_strictly_sequential (sha1 : List Nat → List Nat)
    (t : Torrent) (piece : Nat) (script : List Message)
    (bytes : List Nat) (evs : List Event)
    (h : downloadPiece sha1 t piece script = (.ok bytes, evs)) :
    seqOneInFlight (evs.drop 5) = true ∧
    requestEvents evs
      = (List.range (nblock (piece_size t.plength t.length t.pieces.length
          piece))).map
          (fun k => (piece, k * BLOCK_MAX,
            block_size (piece_size t.plength t.length t.pieces.length piece)
              (nblock (piece_size t.plength t.length t.pieces.length piece))
              k)) := by
  by_cases hp : piece < t.pieces.length
  · match script with
    | [] => simp [downloadPiece, hp] at h
    | bf :: rest =>
      by_cases hbf : bf.tag = MessageTag.bitfield
      · match rest with
        | [] => simp [downloadPiece, hp, hbf] at h
        | un :: rest2 =>
          by_cases hun : un.tag = MessageTag.unchoke
          · by_cases hpay : un.payload = []
            · rcases hloop : downloadBlocks piece
                  (piece_size t.plength t.length t.pieces.length piece)
                  (nblock (piece_size t.plength t.length t.pieces.length piece))
                  (nblock (piece_size t.plength t.length t.pieces.length piece))
                  0 rest2 [] with ⟨res, levs⟩
              cases res with
              | aborted p =>
                simp [downloadPiece, hp, hbf, hun, hpay, hloop] at h
              | done ab =>
                by_cases hsha : sha1 ab = t.pieces[piece]
                · simp only [downloadPiece, hp, hbf, hun, hpay, hloop, hsha,
                    if_pos, ite_true, if_true, ne_eq, not_true_eq_false,
                    if_false, ite_false, Prod.mk.injEq, if_neg,
                    not_false_eq_true, List.getD_eq_getElem,
                    List.cons_append, List.nil_append] at h
                  obtain ⟨h1, h2⟩ := h
                  obtain ⟨hseq, hreq⟩ := downloadBlocks_done_trace piece _ _ _
                    0 rest2 [] ab levs hloop
                  rw [← h2]
                  constructor
                  · simpa using hseq
                  · simp only [requestEvents]
                    rw [hreq]
                    apply List.map_congr_left
                    intro k _
                    simp
                · simp [downloadPiece, hp, hbf, hun, hpay, hloop, hsha] at h
            · simp [downloadPiece, hp, hbf, hun, hpay] at h
          · simp [downloadPiece, hp, hbf, hun] at h
      · simp [downloadPiece, hp, hbf] at h
  · simp [downloadPiece, hp] at h

/-- C8 witness: the sequencing theorem at a concrete completed download of a
5-byte piece: one request `(0, 0, 5)` followed by its response. -/
theorem requests_strictly_sequential_witness :
    seqOneInFlight (([Event.trackerQuery, Event.handshakeSent,
      Event.recvMsg ⟨MessageTag.bitfield, [255]⟩, Event.sendInterested,
      Event.recvMsg ⟨MessageTag.unchoke, []⟩, Event.sendRequest 0 0 5,
      Event.recvMsg ⟨MessageTag.piece,
        [0, 0, 0, 0, 0, 0, 0, 0, 9, 8, 7, 6, 5]⟩] : List Event).drop 5)
      = true ∧
    requestEvents [Event.trackerQuery, Event.handshakeSent,
      Event.recvMsg ⟨MessageTag.bitfield, [255]⟩, Event.sendInterested,
      Event.recvMsg ⟨MessageTag.unchoke, []⟩, Event.sendRequest 0 0 5,
      Event.recvMsg ⟨MessageTag.piece,
        [0, 0, 0, 0, 0, 0, 0, 0, 9, 8, 7, 6, 5]⟩]
      = (List.range (nblock (piece_size 5 5 1 0))).map
          (fun k => (0, k * BLOCK_MAX,
            block_size (piece_size 5 5 1 0) (nblock (piece_size 5 5 1 0)) k)) :=
  requests_strictly_sequential (fun _ => [1]) ⟨5, 5, [[1]]⟩ 0
    [⟨MessageTag.bitfield, [255]⟩, ⟨MessageTag.unchoke, []⟩,
     ⟨MessageTag.piece, [0, 0, 0, 0, 0, 0, 0, 0, 9, 8, 7, 6, 5]⟩]
    [9, 8, 7, 6, 5] _ (by decide)

/-! ## Claim C4: handshake validation -/

/-- C4 counterexample: a 68-byte received handshake whose length byte is the
correct 19 but whose 19-byte literal is 19 copies of `X` makes the handshake
command abort through `assert_eq!` — a panic — rather than fail with a typed
`ProtocolMismatch` error as the claim states. -/
theorem handshake_bad_literal_panics :
    handshakeCheck (19 :: (List.replicate 19 88 ++ List.replicate 48 0))
      = .panicked .handshakeLiteral ∧
    (handshakeCheck
      (19 :: (List.replicate 19 88 ++ List.replicate 48 0))).isErr = false ∧
    (19 :: (List.replicate 19 88 ++ List.replicate 48 0) : List Nat).length
      = 68 := by
  exact ⟨by decide, by decide, by decide⟩

/-- C4 amended: for every received 68-byte handshake whose length byte is
not 19 or whose 19-byte literal is not "BitTorrent protocol", the handshake
command aborts via an assertion failure and never outputs a peer id — it
does not silently continue — but the failure is a panic, not a typed
`ProtocolMismatch` error. -/
theorem handshake_validation_panics (recv : List Nat)
    (_hlen : recv.length = 68)
    (hbad : recv.headD 0 ≠ 19 ∨ (recv.drop 1).take 19 ≠ btLiteral) :
    (handshakeCheck recv = .panicked .handshakeLen ∨
     handshakeCheck recv = .panicked .handshakeLiteral) ∧
    (handshakeCheck recv).isErr = false ∧
    ∀ bytes, handshakeCheck recv ≠ .ok bytes := by
  by_cases hl : recv.headD 0 ≠ 19
  · have hk : handshakeCheck recv = .panicked .handshakeLen := by
      simp only [handshakeCheck, if_pos hl]
    refine ⟨.inl hk, ?_, ?_⟩
    · rw [hk]; rfl
    · intro bytes h
      rw [hk] at h
      exact Outcome.noConfusion h
  · have hb : (recv.drop 1).take 19 ≠ btLiteral := by
      rcases hbad with hb | hb
      · exact absurd hb hl
      · exact hb
    have hk : handshakeCheck recv = .panicked .handshakeLiteral := by
      simp only [handshakeCheck, if_neg hl, if_pos hb]
    refine ⟨.inr hk, ?_, ?_⟩
    · rw [hk]; rfl
    · intro bytes h
      rw [hk] at h
      exact Outcome.noConfusion h

/-- C4 witness: the amended theorem at the concrete wrong-literal
handshake. -/
theorem handshake_validation_panics_witness :
    handshakeCheck (19 :: (List.replicate 19 88 ++ List.replicate 48 0))
      = .panicked .handshakeLen ∨
    handshakeCheck (19 :: (List.replicate 19 88 ++ List.replicate 48 0))
      = .panicked .handshakeLiteral :=
  (handshake_validation_panics _ (by decide) (Or.inr (by decide))).1

/-! ## Claim C9: bencode round-trip, number / string / integer layer -/

/-- A natural number has at least one decimal digit. -/
theorem natDigits_ne_nil (n : Nat) : natDigits n ≠ [] := by
  unfold natDigits
  split
  · simp
  · simp

/-- Decimal digits are in `0..9`. -/
theorem natDigits_lt_ten : ∀ n d, d ∈ natDigits n → d < 10 := by
  intro n
  induction n using Nat.strong_induction_on with
  | _ n ih =>
    intro d hd
    unfold natDigits at hd
    split at hd
    · next h =>
      simp only [List.mem_singleton] at hd
      omega
    · next h =>
      rcases List.mem_append.mp hd with h1 | h1
      · exact ih (n / 10) (Nat.div_lt_self (by omega) (by omega)) d h1
      · simp only [List.mem_singleton] at h1
        subst h1
        exact Nat.mod_lt n (by omega)

/-- `digitsVal` distributes over appending a final digit. -/
theorem digitsVal_append (ds : List Nat) (d : Nat) :
    digitsVal (ds ++ [d]) = 10 * digitsVal ds + d := by
  simp [digitsVal, List.foldl_append]

/-- Reading back the decimal digits of `n` yields `n`. -/
theorem digitsVal_natDigits : ∀ n, digitsVal (natDigits n) = n := by
  intro n
  induction n using Nat.strong_induction_on with
  | _ n ih =>
    unfold natDigits
    split
    · next h => simp [digitsVal]
    · next h =>
      rw [digitsVal_append, ih (n / 10) (Nat.div_lt_self (by omega) (by omega))]
      omega

/-- The decimal form of a nonzero number has no leading zero. -/
theorem natDigits_head_ne_zero : ∀ n c cs,
    n ≠ 0 → natDigits n = c :: cs → c ≠ 0 := by
  intro n
  induction n using Nat.strong_induction_on with
  | _ n ih =>
    intro c cs hn heq
    unfold natDigits at heq
    split at heq
    · next h =>
      simp only [List.cons.injEq] at heq
      omega
    · next h =>
      obtain ⟨c2, cs2, h2⟩ := List.exists_cons_of_ne_nil
        (natDigits_ne_nil (n / 10))
      rw [h2] at heq
      simp only [List.cons_append, List.cons.injEq] at heq
      have hne := ih (n / 10) (Nat.div_lt_self (by omega) (by omega))
        c2 cs2 (by omega) h2
      omega

/-- The ASCII decimal encoding decomposes as a digit-led cons; the head is
`0` (48) only for the number 0 itself. -/
theorem encNat_cons (n : Nat) : ∃ c cs, encNat n = c :: cs ∧
    isDigit c = true ∧ (n ≠ 0 → c ≠ 48) := by
  obtain ⟨d, ds, hd⟩ := List.exists_cons_of_ne_nil (natDigits_ne_nil n)
  refine ⟨d + 48, ds.map (fun x => x + 48), ?_, ?_, ?_⟩
  · simp [encNat, hd]
  · have : d < 10 := natDigits_lt_ten n d (by
      rw [hd]; exact List.mem_cons_self d ds)
    simp only [isDigit, Bool.and_eq_true, decide_eq_true_eq]
    omega
  · intro hn
    have := natDigits_head_ne_zero n d ds hn hd
    omega

/-- Every byte of an ASCII decimal encoding is a digit. -/
theorem encNat_all_digits (n : Nat) :
    ∀ d, d ∈ encNat n → isDigit d = true := by
  intro d hd
  simp only [encNat, List.mem_map] at hd
  obtain ⟨x, hx, hxd⟩ := hd
  have := natDigits_lt_ten n x hx
  subst hxd
  simp only [isDigit, Bool.and_eq_true, decide_eq_true_eq]
  omega

/-- `spanDigits` splits a digit prefix exactly at a non-digit boundary. -/
theorem spanDigits_append : ∀ (ds rest : List Nat),
    (∀ d, d ∈ ds → isDigit d = true) → headNotDigit rest = true →
    spanDigits (ds ++ rest) = (ds, rest) := by
  intro ds
  induction ds with
  | nil =>
    intro rest _ hrest
    cases rest with
    | nil => rfl
    | cons c r =>
      simp only [headNotDigit, Bool.not_eq_true'] at hrest
      simp [spanDigits, hrest]
  | cons d ds ih =>
    intro rest hds hrest
    have hd : isDigit d = true := hds d (List.mem_cons_self d ds)
    simp [spanDigits, hd,
      ih rest (fun x hx => hds x (List.mem_cons_of_mem d hx)) hrest]

/-- Subtracting the ASCII offset recovers the raw digits, hence the
number. -/
theorem digitsVal_encNat_sub (n : Nat) :
    digitsVal ((encNat n).map (fun d => d - 48)) = n := by
  have hmap : (encNat n).map (fun d => d - 48) = natDigits n := by
    rw [encNat, List.map_map]
    have hcg : ∀ x ∈ natDigits n,
        ((fun d => d - 48) ∘ (fun d => d + 48)) x = id x := by
      intro x _
      simp
    rw [List.map_congr_left hcg, List.map_id]
  rw [hmap, digitsVal_natDigits]

/-- Round-trip of the decimal number layer: parsing the encoding of `n`
followed by a non-digit byte yields `n` and the rest. -/
theorem parseNat_encNat (n : Nat) (rest : List Nat)
    (hrest : headNotDigit rest = true) :
    parseNat (encNat n ++ rest) = some (n, rest) := by
  have hspan := spanDigits_append (encNat n) rest (encNat_all_digits n) hrest
  by_cases hn : n = 0
  · subst hn
    have h0 : encNat 0 = [48] := by
      rw [encNat]
      unfold natDigits
      simp
    rw [h0] at hspan
    unfold parseNat
    rw [h0, hspan]
    simp [digitsVal]
  · obtain ⟨c, cs, hc, hcd, hc0⟩ := encNat_cons n
    have hc48 : c ≠ 48 := hc0 hn
    unfold parseNat
    rw [hspan, hc]
    have hcond : ((c :: cs).headD 0 = 48 && (c :: cs).length != 1) = false := by
      simp [hc48]
    have hgoal : digitsVal ((c :: cs).map (fun d => d - 48)) = n := by
      rw [← hc]
      exact digitsVal_encNat_sub n
    simp only [List.map_cons] at hgoal
    simp [hcond]
    exact ⟨fun h => absurd h hc48, hgoal⟩

/-- `takeN` splits off exactly the prefix of the stated length. -/
theorem takeN_append : ∀ (s rest : List Nat),
    takeN s.length (s ++ rest) = some (s, rest) := by
  intro s
  induction s with
  | nil => intro rest; rfl
  | cons c cs ih =>
    intro rest
    simp [takeN, ih rest]

/-- Round-trip of the byte-string layer. -/
theorem parseStr_encStr (s rest : List Nat) :
    parseStr (encStr s ++ rest) = some (s, rest) := by
  have hassoc : encStr s ++ rest = encNat s.length ++ (58 :: (s ++ rest)) := by
    simp [encStr]
  have hp := parseNat_encNat s.length (58 :: (s ++ rest)) rfl
  unfold parseStr
  rw [hassoc, hp]
  exact takeN_append s rest

/-- Round-trip of the integer layer: parsing the encoded integer body up to
its `e` terminator. -/
theorem parseIntBody_encInt (i : Int) (rest : List Nat) :
    parseIntBody (encInt i ++ 101 :: rest) = some (i, rest) := by
  by_cases hi : i < 0
  · have he : encInt i = 45 :: encNat i.natAbs := by
      simp [encInt, hi]
    rw [he]
    unfold parseIntBody
    simp only [List.cons_append, List.headD_cons, List.tail_cons, if_pos]
    rw [parseNat_encNat i.natAbs (101 :: rest) rfl]
    have hne : i.natAbs ≠ 0 := by
      simp only [ne_eq, Int.natAbs_eq_zero]
      omega
    simp only [hne, if_false, ite_false, if_neg, Option.some.injEq,
      Prod.mk.injEq]
    exact ⟨by omega, trivial⟩
  · have he : encInt i = encNat i.toNat := by
      simp [encInt, hi]
    rw [he]
    obtain ⟨c, cs, hc, hcd, _⟩ := encNat_cons i.toNat
    unfold parseIntBody
    have hhead : ¬ ((encNat i.toNat ++ 101 :: rest).headD 0 = 45) := by
      rw [hc]
      simp only [List.cons_append, List.headD_cons]
      simp only [isDigit, Bool.and_eq_true, decide_eq_true_eq] at hcd
      omega
    rw [if_neg hhead]
    rw [parseNat_encNat i.toNat (101 :: rest) rfl]
    simp only [Option.some.injEq, Prod.mk.injEq]
    exact ⟨by omega, trivial⟩

/-! ## Claim C9: bencode round-trip, value layer -/

/-- The tail of a sorted key list is sorted. -/
theorem keysSorted_tail : ∀ k ks, keysSorted (k :: ks) = true →
    keysSorted ks = true := by
  intro k ks h
  cases ks with
  | nil => rfl
  | cons k2 ks2 =>
    simp only [keysSorted, Bool.and_eq_true] at h
    exact h.2

/-- Insertion sort leaves an already key-sorted pair list unchanged, so on
valid dictionaries the canonical encoder emits pairs in stored order. -/
theorem sortPairs_sorted_id : ∀ ps,
    keysSorted (ps.map Prod.fst) = true → sortPairs ps = ps := by
  intro ps
  induction ps with
  | nil => intro _; rfl
  | cons p ps ih =>
    intro h
    have htail : keysSorted (ps.map Prod.fst) = true :=
      keysSorted_tail p.1 (ps.map Prod.fst) (by simpa using h)
    simp only [sortPairs]
    rw [ih htail]
    cases ps with
    | nil => rfl
    | cons q qs =>
      have hlt : keyLt p.1 q.1 = true := by
        simp only [List.map_cons, keysSorted, Bool.and_eq_true] at h
        exact h.1
      simp [insertPair, hlt]

/-- A byte-string encoding starts with a digit. -/
theorem encStr_head (s : List Nat) :
    ∃ c cs, encStr s = c :: cs ∧ isDigit c = true := by
  obtain ⟨c, cs, hc, hcd, _⟩ := encNat_cons s.length
  refine ⟨c, cs ++ 58 :: s, ?_, hcd⟩
  rw [encStr, hc]
  simp

/-- Every value encoding is nonempty and does not start with the `e`
terminator byte. -/
theorem encodeV_head : ∀ v, ∃ c cs, encodeV v = c :: cs ∧ c ≠ 101 := by
  intro v
  cases v with
  | int i =>
    refine ⟨105, encInt i ++ [101], ?_, by omega⟩
    simp [encodeV]
  | str s =>
    obtain ⟨c, cs, hc, hcd⟩ := encStr_head s
    refine ⟨c, cs, ?_, ?_⟩
    · rw [show encodeV (.str s) = encStr s from by simp [encodeV], hc]
    · simp only [isDigit, Bool.and_eq_true, decide_eq_true_eq] at hcd
      omega
  | list vs =>
    refine ⟨108, encodeList vs ++ [101], ?_, by omega⟩
    simp [encodeV]
  | dict ps =>
    refine ⟨100, encodePairs (sortPairs ps) ++ [101], ?_, by omega⟩
    simp [encodeV]

/-- Decoding the concatenated element encodings up to the `e` terminator
recovers the element list (given the round-trip property of each
element). -/
theorem decodeElems_encodeList : ∀ (vs : List BValue),
    (∀ v, v ∈ vs → validB v = true →
      ∀ f rest, needV v ≤ f → decodeV f (encodeV v ++ rest) = some (v, rest)) →
    validL vs = true →
    ∀ f rest, needE vs ≤ f →
      decodeElems f (encodeList vs ++ 101 :: rest) = some (vs, rest) := by
  intro vs
  induction vs with
  | nil =>
    intro _ _ f rest hf
    cases f with
    | zero => simp [needE] at hf
    | succ f2 => simp [decodeElems, encodeList]
  | cons v vs ih =>
    intro IH hval f rest hf
    have hv : validB v = true := by
      simp only [validL, Bool.and_eq_true] at hval
      exact hval.1
    have hvs : validL vs = true := by
      simp only [validL, Bool.and_eq_true] at hval
      exact hval.2
    cases f with
    | zero =>
      simp only [needE] at hf
      omega
    | succ f2 =>
      have hf2v : needV v ≤ f2 := by
        simp only [needE] at hf
        omega
      have hf2e : needE vs ≤ f2 := by
        simp only [needE] at hf
        omega
      obtain ⟨c, cs, hc, hc101⟩ := encodeV_head v
      have hin : encodeList (v :: vs) ++ 101 :: rest
          = encodeV v ++ (encodeList vs ++ 101 :: rest) := by
        simp [encodeList]
      rw [hin]
      unfold decodeElems
      rw [if_neg (show ¬ ((encodeV v ++ (encodeList vs ++ 101 :: rest)).headD 0
          = 101) from by rw [hc]; simpa using hc101)]
      simp only [IH v (List.mem_cons_self v vs) hv f2 _ hf2v,
        ih (fun w hw => IH w (List.mem_cons_of_mem v hw)) hvs f2 rest hf2e]

/-- Decoding the concatenated pair encodings up to the `e` terminator
recovers the pair list (given the round-trip property of each value). -/
theorem decodePairs_encodePairs : ∀ (ps : List (List Nat × BValue)),
    (∀ p, p ∈ ps → validB p.2 = true →
      ∀ f rest, needV p.2 ≤ f →
        decodeV f (encodeV p.2 ++ rest) = some (p.2, rest)) →
    validP ps = true →
    ∀ f rest, needP ps ≤ f →
      decodePairs f (encodePairs ps ++ 101 :: rest) = some (ps, rest) := by
  intro ps
  induction ps with
  | nil =>
    intro _ _ f rest hf
    cases f with
    | zero => simp [needP] at hf
    | succ f2 => simp [decodePairs, encodePairs]
  | cons p ps ih =>
    intro IH hval f rest hf
    have hv : validB p.2 = true := by
      simp only [validP, Bool.and_eq_true] at hval
      exact hval.1
    have hvs : validP ps = true := by
      simp only [validP, Bool.and_eq_true] at hval
      exact hval.2
    cases f with
    | zero =>
      simp only [needP] at hf
      omega
    | succ f2 =>
      have hf2v : needV p.2 ≤ f2 := by
        simp only [needP] at hf
        omega
      have hf2p : needP ps ≤ f2 := by
        simp only [needP] at hf
        omega
      obtain ⟨c, cs, hc, hcd⟩ := encStr_head p.1
      have hin : encodePairs (p :: ps) ++ 101 :: rest
          = encStr p.1 ++ (encodeV p.2 ++ (encodePairs ps ++ 101 :: rest)) := by
        simp [encodePairs]
      rw [hin]
      unfold decodePairs
      have hh : ¬ ((encStr p.1 ++ (encodeV p.2 ++ (encodePairs ps
          ++ 101 :: rest))).headD 0 = 101) := by
        rw [hc]
        simp only [List.cons_append, List.headD_cons]
        simp only [isDigit, Bool.and_eq_true, decide_eq_true_eq] at hcd
        omega
      rw [if_neg hh]
      rw [parseStr_encStr p.1 _]
      simp only [IH p (List.mem_cons_self p ps) hv f2 _ hf2v,
        ih (fun q hq => IH q (List.mem_cons_of_mem p hq)) hvs f2 rest hf2p]

/-- The central round-trip induction: with enough fuel, decoding the
canonical encoding of any valid value followed by any suffix yields exactly
that value and the suffix. -/
theorem decodeV_encodeV : ∀ v, validB v = true →
    ∀ f rest, needV v ≤ f → decodeV f (encodeV v ++ rest) = some (v, rest) := by
  intro v
  induction v using BValue.strongInd with
  | hint i =>
    intro _ f rest hf
    cases f with
    | zero => simp [needV] at hf
    | succ f2 =>
      have hin : encodeV (.int i) ++ rest = 105 :: (encInt i ++ 101 :: rest) := by
        simp [encodeV]
      rw [hin]
      have hstep : decodeV (f2 + 1) (105 :: (encInt i ++ 101 :: rest))
          = match parseIntBody (encInt i ++ 101 :: rest) with
            | some (j, r) => some (BValue.int j, r)
            | none => none := rfl
      rw [hstep, parseIntBody_encInt i rest]
  | hstr s =>
    intro _ f rest hf
    cases f with
    | zero => simp [needV] at hf
    | succ f2 =>
      obtain ⟨c, cs, hc, hcd⟩ := encStr_head s
      have hin : encodeV (.str s) ++ rest = c :: (cs ++ rest) := by
        rw [show encodeV (.str s) = encStr s from by simp [encodeV], hc]
        rfl
      rw [hin]
      have hcn : 48 ≤ c ∧ c ≤ 57 := by
        simpa [isDigit] using hcd
      have h105 : ¬ (c = 105) := by omega
      have h108 : ¬ (c = 108) := by omega
      have h100 : ¬ (c = 100) := by omega
      have hstep : decodeV (f2 + 1) (c :: (cs ++ rest))
          = if c = 105 then
              match parseIntBody (cs ++ rest) with
              | some (i2, r) => some (BValue.int i2, r)
              | none => none
            else if c = 108 then
              match decodeElems f2 (cs ++ rest) with
              | some (ws, r) => some (BValue.list ws, r)
              | none => none
            else if c = 100 then
              match decodePairs f2 (cs ++ rest) with
              | some (qs, r) => some (BValue.dict qs, r)
              | none => none
            else if isDigit c then
              match parseStr (c :: (cs ++ rest)) with
              | some (s2, r) => some (BValue.str s2, r)
              | none => none
            else none := rfl
      rw [hstep, if_neg h105, if_neg h108, if_neg h100, if_pos hcd]
      rw [show (c :: (cs ++ rest)) = encStr s ++ rest from by rw [hc]; rfl]
      rw [parseStr_encStr s rest]
  | hlist vs ihm =>
    intro hval f rest hf
    have hvl : validL vs = true := by simpa [validB] using hval
    cases f with
    | zero => simp [needV] at hf
    | succ f2 =>
      have hf2 : needE vs ≤ f2 := by
        simp only [needV] at hf
        omega
      have hin : encodeV (.list vs) ++ rest
          = 108 :: (encodeList vs ++ 101 :: rest) := by
        simp [encodeV]
      rw [hin]
      have hstep : decodeV (f2 + 1) (108 :: (encodeList vs ++ 101 :: rest))
          = match decodeElems f2 (encodeList vs ++ 101 :: rest) with
            | some (ws, r) => some (BValue.list ws, r)
            | none => none := rfl
      rw [hstep, decodeElems_encodeList vs ihm hvl f2 rest hf2]
  | hdict ps ihm =>
    intro hval f rest hf
    have hks : keysSorted (ps.map Prod.fst) = true := by
      simp only [validB, Bool.and_eq_true] at hval
      exact hval.1
    have hvp : validP ps = true := by
      simp only [validB, Bool.and_eq_true] at hval
      exact hval.2
    cases f with
    | zero => simp [needV] at hf
    | succ f2 =>
      have hf2 : needP ps ≤ f2 := by
        simp only [needV] at hf
        omega
      have hin : encodeV (.dict ps) ++ rest
          = 100 :: (encodePairs ps ++ 101 :: rest) := by
        rw [show encodeV (.dict ps)
            = 100 :: (encodePairs (sortPairs ps) ++ [101]) from by
          simp [encodeV]]
        rw [sortPairs_sorted_id ps hks]
        simp
      rw [hin]
      have hstep : decodeV (f2 + 1) (100 :: (encodePairs ps ++ 101 :: rest))
          = match decodePairs f2 (encodePairs ps ++ 101 :: rest) with
            | some (qs, r) => some (BValue.dict qs, r)
            | none => none := rfl
      rw [hstep, decodePairs_encodePairs ps ihm hvp f2 rest hf2]

/-- An ASCII decimal encoding has at least one byte. -/
theorem encNat_length_pos (n : Nat) : 1 ≤ (encNat n).length := by
  obtain ⟨c, cs, hc, _, _⟩ := encNat_cons n
  rw [hc]
  simp

/-- The fuel needed by `decodeElems` is within twice the encoded length
plus one. -/
theorem needE_le_encodeList : ∀ (vs : List BValue),
    (∀ v, v ∈ vs → validB v = true → needV v + 1 ≤ 2 * (encodeV v).length) →
    validL vs = true →
    needE vs ≤ 1 + 2 * (encodeList vs).length := by
  intro vs
  induction vs with
  | nil =>
    intro _ _
    simp [needE, encodeList]
  | cons v vs ih =>
    intro IH hval
    have hv : validB v = true := by
      simp only [validL, Bool.and_eq_true] at hval
      exact hval.1
    have hvs : validL vs = true := by
      simp only [validL, Bool.and_eq_true] at hval
      exact hval.2
    have h1 := IH v (List.mem_cons_self v vs) hv
    have h2 := ih (fun w hw => IH w (List.mem_cons_of_mem v hw)) hvs
    have he : encodeList (v :: vs) = encodeV v ++ encodeList vs := by
      simp [encodeList]
    rw [he]
    simp only [needE, List.length_append]
    omega

/-- The fuel needed by `decodePairs` is within twice the encoded length
plus one. -/
theorem needP_le_encodePairs : ∀ (ps : List (List Nat × BValue)),
    (∀ p, p ∈ ps → validB p.2 = true →
      needV p.2 + 1 ≤ 2 * (encodeV p.2).length) →
    validP ps = true →
    needP ps ≤ 1 + 2 * (encodePairs ps).length := by
  intro ps
  induction ps with
  | nil =>
    intro _ _
    simp [needP, encodePairs]
  | cons p ps ih =>
    intro IH hval
    have hv : validB p.2 = true := by
      simp only [validP, Bool.and_eq_true] at hval
      exact hval.1
    have hvs : validP ps = true := by
      simp only [validP, Bool.and_eq_true] at hval
      exact hval.2
    have h1 := IH p (List.mem_cons_self p ps) hv
    have h2 := ih (fun q hq => IH q (List.mem_cons_of_mem p hq)) hvs
    have he : encodePairs (p :: ps)
        = encStr p.1 ++ (encodeV p.2 ++ encodePairs ps) := by
      simp [encodePairs]
    rw [he]
    simp only [needP, List.length_append]
    omega

/-- The fuel needed to decode a valid value's encoding is within twice the
encoded length. -/
theorem needV_le_encodeV : ∀ v, validB v = true →
    needV v + 1 ≤ 2 * (encodeV v).length := by
  intro v
  induction v using BValue.strongInd with
  | hint i =>
    intro _
    have he : encodeV (.int i) = 105 :: (encInt i ++ [101]) := by
      simp [encodeV]
    have h1 : 1 ≤ (encInt i).length := by
      unfold encInt
      split
      · simp
      · exact encNat_length_pos _
    rw [he]
    simp only [needV, List.length_cons, List.length_append]
    omega
  | hstr s =>
    intro _
    have he : encodeV (.str s) = encNat s.length ++ 58 :: s := by
      simp [encodeV, encStr]
    have h1 : 1 ≤ (encNat s.length).length := encNat_length_pos _
    rw [he]
    simp only [needV, List.length_append, List.length_cons]
    omega
  | hlist vs ihm =>
    intro hval
    have hvl : validL vs = true := by simpa [validB] using hval
    have hE := needE_le_encodeList vs ihm hvl
    have he : encodeV (.list vs) = 108 :: (encodeList vs ++ [101]) := by
      simp [encodeV]
    rw [he]
    simp only [needV, List.length_cons, List.length_append]
    omega
  | hdict ps ihm =>
    intro hval
    have hks : keysSorted (ps.map Prod.fst) = true := by
      simp only [validB, Bool.and_eq_true] at hval
      exact hval.1
    have hvp : validP ps = true := by
      simp only [validB, Bool.and_eq_true] at hval
      exact hval.2
    have hP := needP_le_encodePairs ps ihm hvp
    have he : encodeV (.dict ps) = 100 :: (encodePairs ps ++ [101]) := by
      rw [show encodeV (.dict ps)
          = 100 :: (encodePairs (sortPairs ps) ++ [101]) from by
        simp [encodeV]]
      rw [sortPairs_sorted_id ps hks]
    rw [he]
    simp only [needV, List.length_cons, List.length_append]
    omega

/-- C9: for every valid bencode value `v` (dictionaries with unique,
byte-lexicographically sorted keys, recursively), decoding the canonical
encoding of `v` yields exactly `v` with no remainder; and every byte
sequence `b` produced by the canonical sorted-dictionary encoder (i.e.
`b = encodeV v`) re-encodes to itself after decoding:
`encode(decode(b)) = b`. -/
theorem bencode_round_trip (v : BValue) (hv : validB v = true) :
    decode (encodeV v) = some (v, []) ∧
    ∀ b, b = encodeV v → (decode b).map (fun p => encodeV p.1) = some b := by
  have hbound := needV_le_encodeV v hv
  have h1 : decode (encodeV v) = some (v, []) := by
    have h := decodeV_encodeV v hv (2 * (encodeV v).length + 2) [] (by omega)
    rw [List.append_nil] at h
    rw [decode]
    exact h
  refine ⟨h1, ?_⟩
  intro b hb
  rw [hb, h1]
  simp

/-- C9 witness: the round-trip theorem at the concrete valid value
`d 1:a i-42e 2:bc l 1:x i0e e e`. -/
theorem bencode_round_trip_witness :
    decode (encodeV (BValue.dict [([97], BValue.int (-42)),
      ([98, 99], BValue.list [BValue.str [120], BValue.int 0])]))
      = some (BValue.dict [([97], BValue.int (-42)),
      ([98, 99], BValue.list [BValue.str [120], BValue.int 0])], []) :=
  (bencode_round_trip (BValue.dict [([97], BValue.int (-42)),
      ([98, 99], BValue.list [BValue.str [120], BValue.int 0])])
    (by decide)).1

end BitTorrent
